import Mathlib

/-!
Shallow embedding of the dfusion event-listener core
(`event_listener/dfusion_db/`): the domain model (`models.py`), the
state-transition and auction-settlement handlers
(`snapp_events/state_transition.py`, `snapp_events/auction_settlement.py`),
the packed prices-and-volumes decoder (`AuctionSettlement.serialize_solution`),
the store-level order aggregation (`database_interface.py`,
`MongoDbInterface.get_orders`), and the event dispatcher
(`generic_event_receiver.py`).

Python machine model used throughout:
- Python integers are arbitrary precision; balances are embedded as `Int`
  (they can go negative), event-payload ids and amounts as `Nat`.
- A Python list read `xs[i]` raises `IndexError` when out of range; fallible
  paths are embedded in `Option`, `none` standing for a raised exception
  (no account record is written on that path).
- `int(s)` / `int(s, 16)` are embedded for the value shapes that occur here:
  nonempty strings of decimal/hex digits, with `int(_, 16)` additionally
  accepting an `0x`/`0X` prefix exactly as Python does.
-/

namespace Dex

/-! ## Domain model (`models.py`) -/

/-- `TransitionType` enum of `models.py` (closed: Deposit = 0, Withdraw = 1). -/
inductive TransitionType where
  | Deposit
  | Withdraw
deriving DecidableEq, Repr

/-- `StateTransition` named tuple of `models.py`. -/
structure StateTransition where
  transition_type : TransitionType
  state_index : Nat
  state_hash : String
  slot : Nat
deriving DecidableEq, Repr

/-- `Deposit` named tuple of `models.py`. -/
structure Deposit where
  account_id : Nat
  token_id : Nat
  amount : Nat
  slot : Nat
  slot_index : Nat
deriving DecidableEq, Repr

/-- `Withdraw` named tuple of `models.py` (`valid` defaults to `False`,
`id` is the optional storage id, default `None`). -/
structure Withdraw where
  account_id : Nat
  token_id : Nat
  amount : Nat
  slot : Nat
  slot_index : Nat
  valid : Bool := false
  id : Option String := none
deriving DecidableEq, Repr

/-- `AccountRecord` named tuple of `models.py`; balances are Python ints,
embedded as `Int` so that negative balances are representable. -/
structure AccountRecord where
  state_index : Nat
  state_hash : String
  balances : List Int
deriving DecidableEq, Repr

/-- `Order` named tuple of `models.py` (`slot` carries the auction id). -/
structure Order where
  slot : Nat
  slot_index : Nat
  account_id : Nat
  buy_token : Nat
  sell_token : Nat
  buy_amount : Nat
  sell_amount : Nat
deriving DecidableEq, Repr

/-- `AuctionResults` named tuple of `models.py`. -/
structure AuctionResults where
  prices : List Nat
  buy_amounts : List Nat
  sell_amounts : List Nat
deriving DecidableEq, Repr

/-- `AuctionSettlement` as consumed by
`AuctionSettlementReceiver.__update_accounts`, whose
`settlement.prices_and_volumes` is read as a decoded `AuctionResults`
(`solution.buy_amounts` / `solution.sell_amounts`).  The checked-in
`models.py` still carries the raw hex string in this field (its own TODO
notes that `serialize_solution` is yet to be called at construction); the
repository's tests construct the decoded form. -/
structure AuctionSettlement where
  auction_id : Nat
  state_index : Nat
  state_hash : String
  prices_and_volumes : AuctionResults
deriving DecidableEq, Repr

/-- Modelled from the spec: the `StandingOrder` model class is imported from
`models` by `database_interface.py`, `orders.py` and the tests, but the class
itself is absent from the checked-in `models.py`.  Fields follow spec §3;
`id` is the opaque storage id (`_id`), increasing with insertion order. -/
structure StandingOrder where
  id : Nat
  account_id : Nat
  batch_index : Nat
  valid_from_auction_id : Nat
  orders : List Order
deriving DecidableEq, Repr

/-! ## Decimal and hex strings

`str(n)` on a nonnegative Python int prints decimal digits; `int(s)` parses
a nonempty string of decimal digits; `int(s, 16)` parses hex, accepting an
optional `0x`/`0X` prefix.  (Python also tolerates surrounding whitespace, a
sign and `_` separators, which never occur in this pipeline.) -/

/-- The character of a decimal digit (`0 ≤ n ≤ 9`). -/
def digitChar (n : Nat) : Char := Char.ofNat (48 + n)

/-- Digits of `n`, most significant first; recursion on a fuel bounded by
the number of digits (fuel `n + 1` always suffices). -/
def decCharsAux : Nat → Nat → List Char
  | 0, _ => []
  | fuel + 1, n =>
    if n < 10 then [digitChar n]
    else decCharsAux fuel (n / 10) ++ [digitChar (n % 10)]

/-- `str(n)` for a nonnegative Python int, as a character list. -/
def decChars (n : Nat) : List Char := decCharsAux (n + 1) n

/-- `str(n)` for a nonnegative Python int. -/
def decString (n : Nat) : String := ⟨decChars n⟩

/-- Value of a decimal digit character, if it is one. -/
def decDigit? (c : Char) : Option Nat :=
  if 48 ≤ c.toNat ∧ c.toNat ≤ 57 then some (c.toNat - 48) else none

/-- Fold of base-10 accumulation over a character list; `none` as soon as a
non-digit appears. -/
def decDigitsVal (l : List Char) : Option Nat :=
  l.foldl
    (fun acc c =>
      match acc, decDigit? c with
      | some a, some d => some (10 * a + d)
      | _, _ => none)
    (some 0)

/-- Python `int(s)` on the decimal strings this pipeline produces:
a nonempty all-digit string parses, anything else raises (`none`). -/
def pyIntDec (s : String) : Option Nat :=
  match s.data with
  | [] => none
  | l => decDigitsVal l

/-- Value of a hex digit character, if it is one (`0-9a-fA-F`). -/
def hexDigit? (c : Char) : Option Nat :=
  if 48 ≤ c.toNat ∧ c.toNat ≤ 57 then some (c.toNat - 48)
  else if 97 ≤ c.toNat ∧ c.toNat ≤ 102 then some (c.toNat - 87)
  else if 65 ≤ c.toNat ∧ c.toNat ≤ 70 then some (c.toNat - 55)
  else none

/-- Fold of base-16 accumulation over a character list. -/
def hexDigitsVal (l : List Char) : Option Nat :=
  l.foldl
    (fun acc c =>
      match acc, hexDigit? c with
      | some a, some d => some (16 * a + d)
      | _, _ => none)
    (some 0)

/-- Nonempty all-hex-digit character list to its big-endian value. -/
def hexValue (l : List Char) : Option Nat :=
  match l with
  | [] => none
  | l => hexDigitsVal l

/-- Python `int(t, 16)`: strips one optional `0x`/`0X` prefix, then requires
a nonempty string of hex digits. -/
def pyIntHex (l : List Char) : Option Nat :=
  if l.take 2 = ['0', 'x'] ∨ l.take 2 = ['0', 'X'] then hexValue (l.drop 2)
  else hexValue l

/-! ## The prices-and-volumes decoder (`AuctionSettlement.serialize_solution`) -/

/-- The slicing `[s[i:i+24] for i in range(0, len(s), 24)]`: consecutive
24-character chunks, the last one possibly shorter.  Recursion on a fuel
bounded by the list length (fuel `l.length` always suffices since every step
consumes at least one character). -/
def chunks24Aux : Nat → List Char → List (List Char)
  | 0, _ => []
  | _, [] => []
  | fuel + 1, l => l.take 24 :: chunks24Aux fuel (l.drop 24)

/-- `[s[i:i+24] for i in range(0, len(s), 24)]`. -/
def chunks24 (l : List Char) : List (List Char) := chunks24Aux l.length l

/-- `list(map(f, l))` for a fallible `f`: `none` if any element raises. -/
def mapOpt (f : α → Option β) : List α → Option (List β)
  | [] => some []
  | x :: xs =>
    match f x, mapOpt f xs with
    | some y, some ys => some (y :: ys)
    | _, _ => none

/-- Python `volumes[0::2]` (even-indexed elements). -/
def evens : List α → List α
  | [] => []
  | [x] => [x]
  | x :: _ :: rest => x :: evens rest

/-- Python `volumes[1::2]` (odd-indexed elements). -/
def odds (l : List α) : List α := evens l.tail

/-- `AuctionSettlement.serialize_solution` (`models.py` lines 183-203):
slice the hex string into 24-char chunks, parse each with `int(t, 16)`,
first `num_tokens` values are prices, remaining values are interleaved
volumes split even/odd into buy/sell amounts.  The source performs no
length validation: a buy/sell length mismatch only logs a warning and the
results are returned regardless. -/
def serialize_solution (prices_and_volumes : String) (num_tokens : Nat) :
    Option AuctionResults :=
  match mapOpt pyIntHex (chunks24 prices_and_volumes.data) with
  | some byte_array =>
    some
      { prices := byte_array.take num_tokens
        buy_amounts := evens (byte_array.drop num_tokens)
        sell_amounts := odds (byte_array.drop num_tokens) }
  | none => none

/-- Modelled from the spec (§4.3.5a), for comparison with
`serialize_solution`: strip an optional `0x` prefix, read consecutive
big-endian 96-bit (24 hex char) values; the first `N` are prices, the
remaining interleaved values split into even-indexed buy amounts and
odd-indexed sell amounts. -/
def specDecodeSolution (s : String) (num_tokens : Nat) : Option AuctionResults :=
  let payload := if s.data.take 2 = ['0', 'x'] then s.data.drop 2 else s.data
  match mapOpt hexValue (chunks24 payload) with
  | some vals =>
    some
      { prices := vals.take num_tokens
        buy_amounts := evens (vals.drop num_tokens)
        sell_amounts := odds (vals.drop num_tokens) }
  | none => none

/-! ## State-transition handler (`snapp_events/state_transition.py`)

`StateTransitionReceiver.__update_accounts` copies the predecessor balances,
iterates the slot's batch (deposits for Deposit transitions, withdraws for
Withdraw transitions, each in storage order) and writes the new
`AccountRecord`.  The two batch reads `get_deposits(slot)` /
`get_withdraws(slot)` are passed here as the lists they return. -/

/-- `index = num_tokens * datum.account_id + datum.token_id` for a deposit. -/
def depositIndex (num_tokens : Nat) (d : Deposit) : Nat :=
  num_tokens * d.account_id + d.token_id

/-- `index = num_tokens * datum.account_id + datum.token_id` for a withdraw. -/
def withdrawIndex (num_tokens : Nat) (w : Withdraw) : Nat :=
  num_tokens * w.account_id + w.token_id

/-- One Deposit-branch loop iteration: `balances[index] += datum.amount`
(raising `IndexError`, i.e. `none`, when `index` is out of range). -/
def applyDeposit (num_tokens : Nat) (balances : List Int) (datum : Deposit) :
    Option (List Int) :=
  let index := depositIndex num_tokens datum
  match balances[index]? with
  | some b => some (balances.set index (b + (datum.amount : Int)))
  | none => none

/-- One Withdraw-branch loop iteration: if `balances[index] - datum.amount >= 0`
then subtract and call `update_withdraw(datum, datum._replace(valid=True))`
(recorded in the accumulated call list), else leave both untouched. -/
def applyWithdraw (num_tokens : Nat)
    (acc : List Int × List (Withdraw × Withdraw)) (datum : Withdraw) :
    Option (List Int × List (Withdraw × Withdraw)) :=
  let index := withdrawIndex num_tokens datum
  match acc.1[index]? with
  | some b =>
    if 0 ≤ b - (datum.amount : Int) then
      some (acc.1.set index (b - (datum.amount : Int)),
            acc.2 ++ [(datum, { datum with valid := true })])
    else
      some acc
  | none => none

/-- Left fold of a fallible step over a list, stopping at the first raise. -/
def foldlOpt (f : β → α → Option β) : β → List α → Option β
  | b, [] => some b
  | b, x :: xs =>
    match f b x with
    | some b' => foldlOpt f b' xs
    | none => none

/-- `StateTransitionReceiver.__update_accounts`: result is the written
`AccountRecord(state_index, state_hash, balances)` together with the list of
`update_withdraw` calls made (empty for Deposit transitions). -/
def updateAccounts (transition : StateTransition) (prev : AccountRecord)
    (num_tokens : Nat) (deposits : List Deposit) (withdraws : List Withdraw) :
    Option (AccountRecord × List (Withdraw × Withdraw)) :=
  match transition.transition_type with
  | TransitionType.Deposit =>
    (foldlOpt (applyDeposit num_tokens) prev.balances deposits).map
      (fun balances =>
        (⟨transition.state_index, transition.state_hash, balances⟩, []))
  | TransitionType.Withdraw =>
    (foldlOpt (applyWithdraw num_tokens) (prev.balances, []) withdraws).map
      (fun acc =>
        (⟨transition.state_index, transition.state_hash, acc.1⟩, acc.2))

/-! ## Auction-settlement handler (`snapp_events/auction_settlement.py`) -/

/-- One iteration of `for i, order in enumerate(orders)`:
`balances[buy_index] += buy_amounts[i]` then
`balances[sell_index] -= sell_amounts[i]`, each subscript raising
(`none`) when out of range. -/
def applyTrade (num_tokens : Nat) (buy_amounts sell_amounts : List Nat)
    (balances : List Int) (i : Nat) (order : Order) : Option (List Int) :=
  let buy_index := num_tokens * order.account_id + order.buy_token
  match balances[buy_index]?, buy_amounts[i]? with
  | some b, some buyAmt =>
    let balances1 := balances.set buy_index (b + (buyAmt : Int))
    let sell_index := num_tokens * order.account_id + order.sell_token
    match balances1[sell_index]?, sell_amounts[i]? with
    | some s, some sellAmt => some (balances1.set sell_index (s - (sellAmt : Int)))
    | _, _ => none
  | _, _ => none

/-- The settlement loop, with `i` the running `enumerate` index. -/
def applyTrades (num_tokens : Nat) (buy_amounts sell_amounts : List Nat)
    (balances : List Int) (i : Nat) : List Order → Option (List Int)
  | [] => some balances
  | order :: rest =>
    match applyTrade num_tokens buy_amounts sell_amounts balances i order with
    | some balances1 =>
      applyTrades num_tokens buy_amounts sell_amounts balances1 (i + 1) rest
    | none => none

/-- `AuctionSettlementReceiver.__update_accounts`: copies
`get_account_state(state_index - 1).balances`, applies the decoded volumes
to `get_orders(auction_id)` (passed as `orders`) by position, and returns
the written `AccountRecord`; `none` when an index access raises before the
write. -/
def settlementUpdateAccounts (settlement : AuctionSettlement)
    (prev : AccountRecord) (num_tokens : Nat) (orders : List Order) :
    Option AccountRecord :=
  (applyTrades num_tokens settlement.prices_and_volumes.buy_amounts
      settlement.prices_and_volumes.sell_amounts prev.balances 0 orders).map
    (fun balances =>
      ⟨settlement.state_index, settlement.state_hash, balances⟩)

/-- Modelled from the spec (§4.3.5 step 5), for comparison with
`settlementUpdateAccounts`: "For each `(order, b, s)`: add `b` to
`balances[N*account_id + buy_token]`; subtract `s` from
`balances[N*account_id + sell_token]`" over an explicitly zipped list of
(order, buy, sell) triples. -/
def specApplyTrades (num_tokens : Nat) (balances : List Int) :
    List (Order × Nat × Nat) → Option (List Int)
  | [] => some balances
  | (order, b, s) :: rest =>
    let buy_index := num_tokens * order.account_id + order.buy_token
    match balances[buy_index]? with
    | some old_buy =>
      let balances1 := balances.set buy_index (old_buy + (b : Int))
      let sell_index := num_tokens * order.account_id + order.sell_token
      match balances1[sell_index]? with
      | some old_sell =>
        specApplyTrades num_tokens (balances1.set sell_index (old_sell - (s : Int))) rest
      | none => none
    | none => none

/-! ## Order aggregation (`MongoDbInterface.get_orders`)

The store contents are modelled as lists in insertion order.  The Mongo
aggregation pipeline `[$match
{validFromAuctionId ≤ A}, $sort {validFromAuctionId: -1, _id: -1}, $group by
accountId taking $first]` selects, per account, the entry maximising
`(valid_from_auction_id, id)` lexicographically; the group output is
materialised here per account in order of first appearance (the pipeline's
group order is unspecified and no claim depends on it). -/

/-- The collections read by `get_orders`. -/
structure OrderStore where
  orders : List Order
  standing_orders : List StandingOrder
deriving Repr

/-- `$match {"validFromAuctionId": {"$lte": auction_id}}`. -/
def standingFiltered (db : OrderStore) (auction_id : Nat) : List StandingOrder :=
  db.standing_orders.filter (fun e => decide (e.valid_from_auction_id ≤ auction_id))

/-- The later entry under `$sort {validFromAuctionId: -1, _id: -1}`:
keep `e` when it beats `best` on `(valid_from_auction_id, id)`. -/
def betterEntry (best e : StandingOrder) : StandingOrder :=
  if best.valid_from_auction_id < e.valid_from_auction_id ∨
      (best.valid_from_auction_id = e.valid_from_auction_id ∧ best.id < e.id) then e
  else best

/-- The `$group {_id: "$accountId", … $first …}` selection for one account:
the entry with lexicographically greatest `(valid_from_auction_id, id)`. -/
def bestFor (entries : List StandingOrder) (a : Nat) : Option StandingOrder :=
  match entries.filter (fun e => decide (e.account_id = a)) with
  | [] => none
  | x :: xs => some (xs.foldl betterEntry x)

/-- Account ids occurring in a standing-order list, in order of first
appearance, without duplicates. -/
def accountIds (entries : List StandingOrder) : List Nat :=
  entries.foldl
    (fun acc e => if e.account_id ∈ acc then acc else acc ++ [e.account_id]) []

/-- `MongoDbInterface.get_orders`: one-shot orders whose `auctionId` matches,
then `orders += standing_order.get_orders()` for each grouped standing-order
entry. -/
def get_orders (db : OrderStore) (auction_id : Nat) : List Order :=
  db.orders.filter (fun o => decide (o.slot = auction_id)) ++
    (accountIds (standingFiltered db auction_id)).flatMap
      (fun a =>
        match bestFor (standingFiltered db auction_id) a with
        | some e => e.orders
        | none => [])

/-- The lexicographic order on `(valid_from_auction_id, id)` realised by the
pipeline's descending sort: `e` precedes (or equals) the winning entry. -/
def entryKeyLe (e e2 : StandingOrder) : Prop :=
  e.valid_from_auction_id < e2.valid_from_auction_id ∨
    (e.valid_from_auction_id = e2.valid_from_auction_id ∧ e.id ≤ e2.id)

/-! ## Dictionary projections (`to_dictionary` / `from_dictionary`)

Each serialized dictionary is embedded as a structure whose fields are the
dict's keys with the value types `to_dictionary` produces (amounts become
decimal strings). -/

/-- The dict produced by `Deposit.to_dictionary`. -/
structure DepositDict where
  accountId : Nat
  tokenId : Nat
  amount : String
  slot : Nat
  slotIndex : Nat
deriving DecidableEq, Repr

/-- `Deposit.to_dictionary`. -/
def Deposit.to_dictionary (d : Deposit) : DepositDict :=
  ⟨d.account_id, d.token_id, decString d.amount, d.slot, d.slot_index⟩

/-- `Deposit.from_dictionary` on a serialized dict: every field is coerced
with `int(...)`; only the decimal-string amount can fail. -/
def Deposit.from_dictionary (data : DepositDict) : Option Deposit :=
  (pyIntDec data.amount).map
    (fun amount => ⟨data.accountId, data.tokenId, amount, data.slot, data.slotIndex⟩)

/-- The dict produced by `Withdraw.to_dictionary`.  Its keys are
`accountId, tokenId, amount, slot, slotIndex, valid, id`; the Mongo key
`_id` (read back by `from_dictionary` via `data.get('_id', None)`) is
carried separately as `underscoreId` and is never written by
`to_dictionary`. -/
structure WithdrawDict where
  accountId : Nat
  tokenId : Nat
  amount : String
  slot : Nat
  slotIndex : Nat
  valid : Bool
  id : Option String
  underscoreId : Option String
deriving DecidableEq, Repr

/-- `Withdraw.to_dictionary`: writes the `id` key, never `_id`. -/
def Withdraw.to_dictionary (w : Withdraw) : WithdrawDict :=
  ⟨w.account_id, w.token_id, decString w.amount, w.slot, w.slot_index, w.valid,
    w.id, none⟩

/-- `Withdraw.from_dictionary`: reads `valid` (default `False`) and the
storage id from key `_id` (default `None`) — not from key `id`. -/
def Withdraw.from_dictionary (data : WithdrawDict) : Option Withdraw :=
  (pyIntDec data.amount).map
    (fun amount =>
      ⟨data.accountId, data.tokenId, amount, data.slot, data.slotIndex,
        data.valid, data.underscoreId⟩)

/-- The dict produced by `Order.to_dictionary` (the `slot` field is written
under the key `auctionId`). -/
structure OrderDict where
  auctionId : Nat
  slotIndex : Nat
  accountId : Nat
  buyToken : Nat
  sellToken : Nat
  buyAmount : String
  sellAmount : String
deriving DecidableEq, Repr

/-- `Order.to_dictionary`. -/
def Order.to_dictionary (o : Order) : OrderDict :=
  ⟨o.slot, o.slot_index, o.account_id, o.buy_token, o.sell_token,
    decString o.buy_amount, decString o.sell_amount⟩

/-- `Order.from_dictionary` on a serialized dict. -/
def Order.from_dictionary (data : OrderDict) : Option Order :=
  match pyIntDec data.buyAmount, pyIntDec data.sellAmount with
  | some buy, some sell =>
    some ⟨data.auctionId, data.slotIndex, data.accountId, data.buyToken,
      data.sellToken, buy, sell⟩
  | _, _ => none

/-! ## Dispatcher (`generic_event_receiver.py`) -/

/-- A decoded event parameter value (`int | str | bytes`). -/
inductive ParamValue where
  | int (n : Int)
  | str (s : String)
  | bytes (b : List Nat)
deriving DecidableEq, Repr

/-- One entry of the decoded event's `params` list. -/
structure EventParam where
  name : String
  value : ParamValue
deriving DecidableEq, Repr

/-- A decoded event record `{name: str, params: [...]}`. -/
structure EventRecord where
  name : String
  params : List EventParam
deriving DecidableEq, Repr

/-- Lowercase hex character of a value `0 ≤ n ≤ 15`. -/
def hexChar (n : Nat) : Char :=
  if n < 10 then digitChar n else Char.ofNat (87 + n)

/-- One byte as two lowercase hex characters (`bytes.hex()` per byte). -/
def hexPair (b : Nat) : List Char := [hexChar (b / 16 % 16), hexChar (b % 16)]

/-- `parse_event`: project `params` to name/value pairs, rendering byte
strings as lowercase hex (`v.hex()`).  (The Python dict comprehension would
additionally collapse duplicate parameter names, which does not occur and is
not relied on by any claim.) -/
def parse_event (decoded_event : EventRecord) : List (String × ParamValue) :=
  decoded_event.params.map
    (fun p =>
      (p.name,
        match p.value with
        | ParamValue.bytes b => ParamValue.str ⟨b.flatMap hexPair⟩
        | v => v))

/-- The handlers registered in `RECEIVER_MAPPING`, one tag per receiver. -/
inductive ReceiverTag where
  | deposit
  | withdrawRequest
  | stateTransition
  | snappInitialization
  | sellOrder
  | auctionSettlement
  | auctionInitialization
  | standingSellOrderBatch
deriving DecidableEq, Repr

/-- `RECEIVER_MAPPING.get(event_name, None)`. -/
def receiverFor (name : String) : Option ReceiverTag :=
  if name = "Deposit" then some ReceiverTag.deposit
  else if name = "WithdrawRequest" then some ReceiverTag.withdrawRequest
  else if name = "StateTransition" then some ReceiverTag.stateTransition
  else if name = "SnappInitialization" then some ReceiverTag.snappInitialization
  else if name = "SellOrder" then some ReceiverTag.sellOrder
  else if name = "AuctionSettlement" then some ReceiverTag.auctionSettlement
  else if name = "AuctionInitialization" then some ReceiverTag.auctionInitialization
  else if name = "StandingSellOrderBatch" then some ReceiverTag.standingSellOrderBatch
  else none

/-- `EventDispatcher.save`, generic in the store state `σ` and in the
behaviour `run` of the individual receivers: a recognized name parses the
event and invokes its receiver (the returned tag list records the
invocation); an unknown name only logs a warning and returns the store
untouched.  `none` models an exception escaping a receiver. -/
def dispatchSave {σ : Type} (run : ReceiverTag → List (String × ParamValue) → σ → Option σ)
    (decoded_event : EventRecord) (st : σ) : Option (σ × List ReceiverTag) :=
  match receiverFor decoded_event.name with
  | some tag =>
    (run tag (parse_event decoded_event) st).map (fun st' => (st', [tag]))
  | none => some (st, [])

/-! ## Decimal round-trip lemmas -/

theorem decDigit?_digitChar (d : Nat) (h : d < 10) : decDigit? (digitChar d) = some d := by
  interval_cases d <;> decide

theorem decDigitsVal_append (l : List Char) (c : Char) :
    decDigitsVal (l ++ [c]) =
      match decDigitsVal l, decDigit? c with
      | some a, some d => some (10 * a + d)
      | _, _ => none := by
  simp only [decDigitsVal, List.foldl_append, List.foldl]

theorem decDigitsVal_decCharsAux (fuel : Nat) :
    ∀ n : Nat, n < fuel → decDigitsVal (decCharsAux fuel n) = some n := by
  induction fuel with
  | zero => intro n h; omega
  | succ fuel ih =>
    intro n h
    by_cases h10 : n < 10
    · simp only [decCharsAux, if_pos h10, decDigitsVal, List.foldl,
        decDigit?_digitChar n h10]
      norm_num
    · have hdiv : n / 10 < n := Nat.div_lt_self (by omega) (by norm_num)
      simp only [decCharsAux, if_neg h10, decDigitsVal_append,
        ih (n / 10) (by omega), decDigit?_digitChar (n % 10) (Nat.mod_lt _ (by norm_num))]
      exact congrArg some (by omega)

theorem decChars_ne_nil (n : Nat) : decChars n ≠ [] := by
  simp only [decChars, decCharsAux]
  split <;> simp

theorem pyIntDec_decString (n : Nat) : pyIntDec (decString n) = some n := by
  have hval : decDigitsVal (decChars n) = some n :=
    decDigitsVal_decCharsAux (n + 1) n (by omega)
  obtain ⟨c, cs, hcc⟩ := List.exists_cons_of_ne_nil (decChars_ne_nil n)
  have hdata : (decString n).data = c :: cs := hcc
  simp only [pyIntDec, hdata]
  rw [← hcc]
  exact hval

/-- C8: round-trip `parse(serialize(v)) = v` fails for a `Withdraw` carrying a
non-`None` storage id: `to_dictionary` writes the id under the key `id` while
`from_dictionary` reads it back from the key `_id` (absent from the serialized
dict), so the id comes back as `None`. -/
theorem c8_withdraw_id_not_roundtripped :
    Withdraw.from_dictionary
        (Withdraw.to_dictionary ⟨1, 2, 3, 4, 5, true, some "x"⟩) =
      some ⟨1, 2, 3, 4, 5, true, none⟩ ∧
    Withdraw.from_dictionary
        (Withdraw.to_dictionary ⟨1, 2, 3, 4, 5, true, some "x"⟩) ≠
      some ⟨1, 2, 3, 4, 5, true, some "x"⟩ := by
  constructor <;> decide

/-- C8 (amended): `parse(serialize(v)) = v` holds for `Deposit` and `Order`,
and for `Withdraw` up to the storage id: the valid flag and all numeric fields
survive, but the parsed id is always `None` (so the round-trip is the identity
exactly on withdraws whose id is `None`). -/
theorem c8_roundtrip :
    (∀ d : Deposit, Deposit.from_dictionary (Deposit.to_dictionary d) = some d) ∧
    (∀ o : Order, Order.from_dictionary (Order.to_dictionary o) = some o) ∧
    (∀ w : Withdraw,
      Withdraw.from_dictionary (Withdraw.to_dictionary w) = some { w with id := none }) := by
  refine ⟨fun d => ?_, fun o => ?_, fun w => ?_⟩
  · simp only [Deposit.from_dictionary, Deposit.to_dictionary, pyIntDec_decString,
      Option.map_some']
  · simp only [Order.from_dictionary, Order.to_dictionary, pyIntDec_decString]
  · simp only [Withdraw.from_dictionary, Withdraw.to_dictionary, pyIntDec_decString,
      Option.map_some']

/-- C9: dispatching a decoded event whose name is not registered in
`RECEIVER_MAPPING` invokes no receiver and leaves the store untouched,
whatever the receivers would do, and raises nothing (the dispatcher only logs
a warning); `"Foo"` in particular is unrecognized. -/
theorem c9_unknown_event_dropped :
    (∀ (σ : Type) (run : ReceiverTag → List (String × ParamValue) → σ → Option σ)
      (st : σ) (decoded_event : EventRecord),
      receiverFor decoded_event.name = none →
      dispatchSave run decoded_event st = some (st, [])) ∧
    receiverFor "Foo" = none := by
  refine ⟨fun σ run st e h => ?_, by decide⟩
  simp only [dispatchSave, h]

/-- C9 witness: dispatching `{name: "Foo", params: []}` against an arbitrary
store value returns it unchanged with no receiver invoked. -/
theorem c9_witness :
    dispatchSave (fun _ _ st => some st) ⟨"Foo", []⟩ (0 : Nat) = some (0, []) :=
  c9_unknown_event_dropped.1 Nat (fun _ _ st => some st) 0 ⟨"Foo", []⟩
    c9_unknown_event_dropped.2

set_option maxRecDepth 40000

/-- C6: `serialize_solution` does not validate the payload length.  With
`N = 3, M = 6`, a payload of `24 * (3 + 2*6) - 24 = 336` hex characters (one
96-bit value short) is NOT rejected: the decoder returns an `AuctionResults`
with 6 buy amounts but only 5 sell amounts, logging a warning ("Solution data
is not correct!") instead of raising `MalformedSettlement` — contradicting the
spec, the repository's own test (`models_test.AuctionSettlementTest.
test_bad_results` expects an error on a payload cropped by 24 chars) and the
decoder's own TODO comment announcing the missing assertion.  A payload of the
matching length `24 * 15 = 360` decodes without failure, as the claim also
states. -/
theorem c6_short_payload_not_rejected :
    serialize_solution ⟨List.replicate 336 '0'⟩ 3 =
      some ⟨List.replicate 3 0, List.replicate 6 0, List.replicate 5 0⟩ ∧
    serialize_solution ⟨List.replicate 360 '0'⟩ 3 =
      some ⟨List.replicate 3 0, List.replicate 6 0, List.replicate 6 0⟩ := by
  constructor <;> decide

/-! ## Non-negativity of state transitions -/

theorem depositFold_nonneg (num_tokens : Nat) :
    ∀ (deposits : List Deposit) (bal bal' : List Int),
      (∀ x ∈ bal, 0 ≤ x) →
      foldlOpt (applyDeposit num_tokens) bal deposits = some bal' →
      ∀ x ∈ bal', 0 ≤ x := by
  intro deposits
  induction deposits with
  | nil =>
    intro bal bal' h0 heq
    simp only [foldlOpt] at heq
    cases heq
    exact h0
  | cons d ds ih =>
    intro bal bal' h0 heq
    simp only [foldlOpt] at heq
    cases happ : applyDeposit num_tokens bal d with
    | none => rw [happ] at heq; cases heq
    | some bal1 =>
      rw [happ] at heq
      refine ih bal1 bal' ?_ heq
      simp only [applyDeposit] at happ
      cases hb : bal[depositIndex num_tokens d]? with
      | none => rw [hb] at happ; cases happ
      | some b =>
        rw [hb] at happ
        cases happ
        intro x hx
        rcases List.mem_or_eq_of_mem_set hx with hmem | hval
        · exact h0 x hmem
        · have hb0 : 0 ≤ b := h0 b (List.getElem?_mem hb)
          have : (0 : Int) ≤ (d.amount : Int) := Int.natCast_nonneg _
          omega

theorem withdrawFold_nonneg (num_tokens : Nat) :
    ∀ (withdraws : List Withdraw) (bal : List Int)
      (ops : List (Withdraw × Withdraw)) (bal' : List Int)
      (ops' : List (Withdraw × Withdraw)),
      (∀ x ∈ bal, 0 ≤ x) →
      foldlOpt (applyWithdraw num_tokens) (bal, ops) withdraws = some (bal', ops') →
      ∀ x ∈ bal', 0 ≤ x := by
  intro withdraws
  induction withdraws with
  | nil =>
    intro bal ops bal' ops' h0 heq
    simp only [foldlOpt] at heq
    cases heq
    exact h0
  | cons w ws ih =>
    intro bal ops bal' ops' h0 heq
    simp only [foldlOpt] at heq
    cases happ : applyWithdraw num_tokens (bal, ops) w with
    | none => rw [happ] at heq; cases heq
    | some acc1 =>
      rw [happ] at heq
      refine ih acc1.1 acc1.2 bal' ops' ?_ heq
      simp only [applyWithdraw] at happ
      cases hb : bal[withdrawIndex num_tokens w]? with
      | none => rw [hb] at happ; cases happ
      | some b =>
        simp only [hb] at happ
        by_cases hge : (0 : Int) ≤ b - (w.amount : Int)
        · rw [if_pos hge] at happ
          cases happ
          intro x hx
          rcases List.mem_or_eq_of_mem_set hx with hmem | hval
          · exact h0 x hmem
          · omega
        · rw [if_neg hge] at happ
          cases happ
          exact h0

/-- C1: the claim is false for the auction-settlement handler, which applies
the decoded sell volumes with no non-negativity check (the source subtracts
`sell_amounts[i]` unconditionally; spec §4.3.5 itself notes the handler does
not re-verify non-negativity).  From the all-nonnegative predecessor balances
`[0, 0]` (N = 2), a single order (account 0, buy token 1, sell token 0) with
executed buy 0 and sell 5 yields a written `AccountRecord` whose balances are
`[-5, 0]`, containing a negative element. -/
theorem c1_settlement_negative_balance :
    settlementUpdateAccounts ⟨1, 2, "H", ⟨[1, 1], [0], [5]⟩⟩ ⟨1, "H0", [0, 0]⟩ 2
        [⟨1, 0, 0, 1, 0, 1, 5⟩] = some ⟨2, "H", [-5, 0]⟩ ∧
    (∀ x ∈ (AccountRecord.mk 1 "H0" [0, 0]).balances, 0 ≤ x) ∧
    ¬ (∀ x ∈ (AccountRecord.mk 2 "H" [-5, 0]).balances, 0 ≤ x) := by
  refine ⟨by decide, by decide, ?_⟩
  intro h
  have := h (-5) (by simp)
  omega

/-- C1 (amended): non-negativity is preserved by the state-transition handler
for both transition types — a Deposit transition only adds nonnegative
amounts, a Withdraw transition subtracts only under the `balances[i] ≥ δ`
guard — but NOT by the auction-settlement handler, which can write negative
balances (see the counterexample). -/
theorem c1_transitions_preserve_nonnegativity
    (transition : StateTransition) (prev : AccountRecord) (num_tokens : Nat)
    (deposits : List Deposit) (withdraws : List Withdraw)
    (rec : AccountRecord) (ops : List (Withdraw × Withdraw))
    (h0 : ∀ x ∈ prev.balances, 0 ≤ x)
    (heq : updateAccounts transition prev num_tokens deposits withdraws = some (rec, ops)) :
    ∀ x ∈ rec.balances, 0 ≤ x := by
  cases htt : transition.transition_type with
  | Deposit =>
    simp only [updateAccounts, htt, Option.map_eq_some'] at heq
    obtain ⟨bal, hfold, hpair⟩ := heq
    cases hpair
    exact depositFold_nonneg num_tokens deposits prev.balances bal h0 hfold
  | Withdraw =>
    simp only [updateAccounts, htt, Option.map_eq_some'] at heq
    obtain ⟨acc, hfold, hpair⟩ := heq
    cases hpair
    exact withdrawFold_nonneg num_tokens withdraws prev.balances [] acc.1 acc.2 h0
      (by rw [← hfold])

/-- C1 witness: a concrete Deposit transition from nonnegative balances `[5]`
writes the record with balances `[12]`, whose (only) entry is nonnegative. -/
theorem c1_witness : (0 : Int) ≤ 12 :=
  c1_transitions_preserve_nonnegativity ⟨TransitionType.Deposit, 2, "H", 3⟩
    ⟨1, "H0", [5]⟩ 1 [⟨0, 0, 7, 3, 0⟩] [] ⟨2, "H", [12]⟩ [] (by decide) (by decide)
    12 (by simp)

/-! ## Withdraw-transition semantics -/

/-- C2: the Withdraw-transition pass in storage order.  (a) A record whose
indexed balance covers its amount has the amount subtracted and is updated via
`update_withdraw` to `valid = true`; (b) a record with insufficient balance
changes neither the balances nor the accumulated `update_withdraw` calls and
raises nothing; (c) consequently, when two withdraws of one slot target the
same `(account, token)` and their sum exceeds the pre-batch balance, the full
Withdraw transition honors exactly the earlier record: it writes the balance
reduced by the first amount only and flips only the first record. -/
theorem c2_withdraw_semantics :
    (∀ (num_tokens : Nat) (bal : List Int) (ops : List (Withdraw × Withdraw))
      (w : Withdraw) (b : Int),
      bal[withdrawIndex num_tokens w]? = some b →
      (w.amount : Int) ≤ b →
      applyWithdraw num_tokens (bal, ops) w =
        some (bal.set (withdrawIndex num_tokens w) (b - (w.amount : Int)),
          ops ++ [(w, { w with valid := true })])) ∧
    (∀ (num_tokens : Nat) (bal : List Int) (ops : List (Withdraw × Withdraw))
      (w : Withdraw) (b : Int),
      bal[withdrawIndex num_tokens w]? = some b →
      b < (w.amount : Int) →
      applyWithdraw num_tokens (bal, ops) w = some (bal, ops)) ∧
    (∀ (transition : StateTransition) (prev : AccountRecord) (num_tokens : Nat)
      (deposits : List Deposit) (w1 w2 : Withdraw) (b : Int),
      transition.transition_type = TransitionType.Withdraw →
      w2.account_id = w1.account_id →
      w2.token_id = w1.token_id →
      prev.balances[withdrawIndex num_tokens w1]? = some b →
      (w1.amount : Int) ≤ b →
      b < (w1.amount : Int) + (w2.amount : Int) →
      updateAccounts transition prev num_tokens deposits [w1, w2] =
        some (⟨transition.state_index, transition.state_hash,
          prev.balances.set (withdrawIndex num_tokens w1) (b - (w1.amount : Int))⟩,
          [(w1, { w1 with valid := true })])) := by
  have hsub : ∀ (num_tokens : Nat) (bal : List Int) (ops : List (Withdraw × Withdraw))
      (w : Withdraw) (b : Int),
      bal[withdrawIndex num_tokens w]? = some b →
      (w.amount : Int) ≤ b →
      applyWithdraw num_tokens (bal, ops) w =
        some (bal.set (withdrawIndex num_tokens w) (b - (w.amount : Int)),
          ops ++ [(w, { w with valid := true })]) := by
    intro num_tokens bal ops w b hb hle
    simp only [applyWithdraw, hb]
    rw [if_pos (by omega)]
  have hskip : ∀ (num_tokens : Nat) (bal : List Int) (ops : List (Withdraw × Withdraw))
      (w : Withdraw) (b : Int),
      bal[withdrawIndex num_tokens w]? = some b →
      b < (w.amount : Int) →
      applyWithdraw num_tokens (bal, ops) w = some (bal, ops) := by
    intro num_tokens bal ops w b hb hlt
    simp only [applyWithdraw, hb]
    rw [if_neg (by omega)]
  refine ⟨hsub, hskip, ?_⟩
  intro transition prev num_tokens deposits w1 w2 b htt hacct htok hb h1 h2
  have hidx : withdrawIndex num_tokens w2 = withdrawIndex num_tokens w1 := by
    simp only [withdrawIndex, hacct, htok]
  have hlen : withdrawIndex num_tokens w1 < prev.balances.length := by
    rcases List.getElem?_eq_some.mp hb with ⟨hlt, _⟩
    exact hlt
  have hb2 : (prev.balances.set (withdrawIndex num_tokens w1)
      (b - (w1.amount : Int)))[withdrawIndex num_tokens w2]? =
        some (b - (w1.amount : Int)) := by
    rw [hidx]
    exact List.getElem?_set_eq_of_lt _ hlen
  simp only [updateAccounts, htt, foldlOpt,
    hsub num_tokens prev.balances [] w1 b hb h1,
    hskip num_tokens _ _ w2 (b - (w1.amount : Int)) hb2 (by omega)]
  simp [Option.map_some']

/-- C2 witness: concrete two-withdraw batch on one token — balance 10,
withdraw amounts 7 then 6: only the first is honored. -/
theorem c2_witness :
    updateAccounts ⟨TransitionType.Withdraw, 2, "H", 3⟩ ⟨1, "H0", [10]⟩ 1 []
        [⟨0, 0, 7, 3, 0, false, none⟩, ⟨0, 0, 6, 3, 1, false, none⟩] =
      some (⟨2, "H", (([10] : List Int)).set 0 (10 - (7 : Nat))⟩,
        [(⟨0, 0, 7, 3, 0, false, none⟩,
          { (⟨0, 0, 7, 3, 0, false, none⟩ : Withdraw) with valid := true })]) :=
  c2_withdraw_semantics.2.2 ⟨TransitionType.Withdraw, 2, "H", 3⟩ ⟨1, "H0", [10]⟩ 1 []
    ⟨0, 0, 7, 3, 0, false, none⟩ ⟨0, 0, 6, 3, 1, false, none⟩ 10 (by decide) (by decide) (by decide) (by decide)
    (by decide) (by decide)

/-! ## Deposit-transition characterization -/

theorem depositFold_getElem (num_tokens : Nat) :
    ∀ (deposits : List Deposit) (bal bal' : List Int),
      foldlOpt (applyDeposit num_tokens) bal deposits = some bal' →
      ∀ j : Nat,
        bal'[j]? = (bal[j]?).map
          (fun v => v +
            ((deposits.filter (fun d => decide (depositIndex num_tokens d = j))).map
              (fun d => (d.amount : Int))).sum) := by
  intro deposits
  induction deposits with
  | nil =>
    intro bal bal' heq j
    simp only [foldlOpt] at heq
    cases heq
    simp only [List.filter_nil, List.map_nil, List.sum_nil, add_zero]
    cases bal[j]? <;> simp
  | cons d ds ih =>
    intro bal bal' heq j
    simp only [foldlOpt] at heq
    cases happ : applyDeposit num_tokens bal d with
    | none => rw [happ] at heq; cases heq
    | some bal1 =>
      rw [happ] at heq
      have hj := ih bal1 bal' heq j
      simp only [applyDeposit] at happ
      cases hb : bal[depositIndex num_tokens d]? with
      | none => rw [hb] at happ; cases happ
      | some b =>
        simp only [hb] at happ
        cases happ
        rw [hj]
        by_cases hij : depositIndex num_tokens d = j
        · have hlen : depositIndex num_tokens d < bal.length := by
            rcases List.getElem?_eq_some.mp hb with ⟨hlt, _⟩
            exact hlt
          rw [List.filter_cons, if_pos (by simp [hij])]
          subst hij
          rw [List.getElem?_set_eq_of_lt _ hlen, hb]
          simp only [List.map_cons, List.sum_cons, Option.map_some']
          congr 1
          ring
        · rw [List.getElem?_set_ne hij, List.filter_cons, if_neg (by simp [hij])]

/-- C3: a Deposit-type state transition copies the predecessor balances, adds
each deposit of the slot's batch at index `num_tokens * account_id + token_id`,
performs no `update_withdraw` call, and writes
`AccountRecord(state_index, state_hash, new balances)`: pointwise, every
balance entry grows by the sum of amounts of the batch deposits addressing it.
Concretely (spec scenario S1): from a predecessor of 100 balances all 42 with
`num_tokens = 10` and deposits (account 0, token 1, amount 10) and (account 6,
token 2, amount 5) in slot 3, the record written at state index 2 has
`balances[1] = 52`, `balances[62] = 47` and all other entries 42. -/
theorem c3_deposit_transition :
    (∀ (transition : StateTransition) (prev : AccountRecord) (num_tokens : Nat)
      (deposits : List Deposit) (withdraws : List Withdraw)
      (rec : AccountRecord) (ops : List (Withdraw × Withdraw)),
      transition.transition_type = TransitionType.Deposit →
      updateAccounts transition prev num_tokens deposits withdraws = some (rec, ops) →
      rec.state_index = transition.state_index ∧
      rec.state_hash = transition.state_hash ∧
      ops = [] ∧
      ∀ j : Nat,
        rec.balances[j]? = (prev.balances[j]?).map
          (fun v => v +
            ((deposits.filter (fun d => decide (depositIndex num_tokens d = j))).map
              (fun d => (d.amount : Int))).sum)) ∧
    updateAccounts ⟨TransitionType.Deposit, 2, "H1", 3⟩
        ⟨1, "H0", List.replicate 100 42⟩ 10
        [⟨0, 1, 10, 3, 0⟩, ⟨6, 2, 5, 3, 1⟩] [] =
      some (⟨2, "H1", ((List.replicate 100 (42 : Int)).set 1 52).set 62 47⟩, []) := by
  constructor
  · intro transition prev num_tokens deposits withdraws rec ops htt heq
    simp only [updateAccounts, htt, Option.map_eq_some'] at heq
    obtain ⟨bal, hfold, hpair⟩ := heq
    cases hpair
    exact ⟨rfl, rfl, rfl, depositFold_getElem num_tokens deposits prev.balances bal hfold⟩
  · decide

/-- C3 witness: the pointwise characterization applied to the concrete S1
batch at index 62: the written balance is 42 + 5. -/
theorem c3_witness :
    (((List.replicate 100 (42 : Int)).set 1 52).set 62 47)[62]? =
      ((List.replicate 100 (42 : Int))[62]?).map
        (fun v => v +
          (([(⟨0, 1, 10, 3, 0⟩ : Deposit), ⟨6, 2, 5, 3, 1⟩].filter
            (fun d => decide (depositIndex 10 d = 62))).map
              (fun d => (d.amount : Int))).sum) :=
  (c3_deposit_transition.1 ⟨TransitionType.Deposit, 2, "H1", 3⟩
      ⟨1, "H0", List.replicate 100 42⟩ 10 [⟨0, 1, 10, 3, 0⟩, ⟨6, 2, 5, 3, 1⟩] []
      ⟨2, "H1", ((List.replicate 100 (42 : Int)).set 1 52).set 62 47⟩ []
      (by decide) c3_deposit_transition.2).2.2.2 62

/-! ## Settlement-handler characterization -/

theorem applyTrades_eq_spec (num_tokens : Nat) (buys sells : List Nat) :
    ∀ (orders : List Order) (i : Nat) (bal : List Int),
      orders.length + i ≤ buys.length →
      orders.length + i ≤ sells.length →
      applyTrades num_tokens buys sells bal i orders =
        specApplyTrades num_tokens bal (orders.zip ((buys.drop i).zip (sells.drop i))) := by
  intro orders
  induction orders with
  | nil => intro i bal hb hs; simp [applyTrades, specApplyTrades]
  | cons o rest ih =>
    intro i bal hb hs
    have hib : i < buys.length := by simp only [List.length_cons] at hb; omega
    have his : i < sells.length := by simp only [List.length_cons] at hs; omega
    rw [List.drop_eq_getElem_cons hib, List.drop_eq_getElem_cons his]
    cases hbuy : bal[num_tokens * o.account_id + o.buy_token]? with
    | none =>
      simp only [List.zip_cons_cons, applyTrades, specApplyTrades, applyTrade, hbuy,
        List.getElem?_eq_getElem hib, List.getElem?_eq_getElem his]
    | some b =>
      cases hsell : (bal.set (num_tokens * o.account_id + o.buy_token)
          (b + (buys[i] : Int)))[num_tokens * o.account_id + o.sell_token]? with
      | none =>
        simp only [List.zip_cons_cons, applyTrades, specApplyTrades, applyTrade, hbuy,
          hsell, List.getElem?_eq_getElem hib, List.getElem?_eq_getElem his]
      | some s =>
        simp only [List.zip_cons_cons, applyTrades, specApplyTrades, applyTrade, hbuy,
          hsell, List.getElem?_eq_getElem hib, List.getElem?_eq_getElem his]
        exact ih (i + 1) _ (by simp only [List.length_cons] at hb; omega)
          (by simp only [List.length_cons] at hs; omega)

/-- C4: the settlement handler pairs the i-th order returned by
`get_orders(auction_id)` with the i-th decoded buy and sell volumes: whenever
the order list is no longer than both decoded volume lists, the handler is
exactly the spec's pass over zipped `(order, buy, sell)` triples — adding `b`
at `num_tokens*account_id + buy_token`, subtracting `s` at
`num_tokens*account_id + sell_token` — wrapped into
`AccountRecord(state_index, state_hash, ·)`.  Concretely (spec scenario S3):
with `N = 2`, base balances `[42,42,42,42]`, orders (account 0, buy token 1,
sell token 0) and (account 1, buy token 0, sell token 1) and executed volumes
buy0=16, sell0=10, buy1=10, sell1=16, the written balances are
`[32, 58, 52, 26]`. -/
theorem c4_settlement_application :
    (∀ (settlement : AuctionSettlement) (prev : AccountRecord) (num_tokens : Nat)
      (orders : List Order),
      orders.length ≤ settlement.prices_and_volumes.buy_amounts.length →
      orders.length ≤ settlement.prices_and_volumes.sell_amounts.length →
      settlementUpdateAccounts settlement prev num_tokens orders =
        (specApplyTrades num_tokens prev.balances
          (orders.zip (settlement.prices_and_volumes.buy_amounts.zip
            settlement.prices_and_volumes.sell_amounts))).map
          (fun balances =>
            ⟨settlement.state_index, settlement.state_hash, balances⟩)) ∧
    settlementUpdateAccounts ⟨1, 2, "H1", ⟨[16, 10], [16, 10], [10, 16]⟩⟩
        ⟨1, "H0", [42, 42, 42, 42]⟩ 2
        [⟨1, 4, 0, 1, 0, 10, 10⟩, ⟨1, 4, 1, 0, 1, 8, 16⟩] =
      some ⟨2, "H1", [32, 58, 52, 26]⟩ := by
  constructor
  · intro settlement prev num_tokens orders hb hs
    unfold settlementUpdateAccounts
    rw [applyTrades_eq_spec num_tokens _ _ orders 0 prev.balances (by omega) (by omega)]
    simp [List.drop_zero]
  · decide

/-- C4 witness: the refinement applied to the concrete S3 settlement. -/
theorem c4_witness :
    settlementUpdateAccounts ⟨1, 2, "H1", ⟨[16, 10], [16, 10], [10, 16]⟩⟩
        ⟨1, "H0", [42, 42, 42, 42]⟩ 2
        [⟨1, 4, 0, 1, 0, 10, 10⟩, ⟨1, 4, 1, 0, 1, 8, 16⟩] =
      (specApplyTrades 2 [42, 42, 42, 42]
        ([(⟨1, 4, 0, 1, 0, 10, 10⟩ : Order), ⟨1, 4, 1, 0, 1, 8, 16⟩].zip
          ([16, 10].zip [10, 16]))).map
        (fun balances => ⟨2, "H1", balances⟩) :=
  c4_settlement_application.1 ⟨1, 2, "H1", ⟨[16, 10], [16, 10], [10, 16]⟩⟩
    ⟨1, "H0", [42, 42, 42, 42]⟩ 2 [⟨1, 4, 0, 1, 0, 10, 10⟩, ⟨1, 4, 1, 0, 1, 8, 16⟩]
    (by decide) (by decide)

/-! ## Settlement bounds behaviour -/

theorem applyTrade_some_buyIdx (num_tokens : Nat) (buys sells : List Nat)
    (bal bal1 : List Int) (i : Nat) (o : Order)
    (h : applyTrade num_tokens buys sells bal i o = some bal1) :
    i < buys.length := by
  simp only [applyTrade] at h
  cases hb : bal[num_tokens * o.account_id + o.buy_token]? with
  | none => rw [hb] at h; cases h
  | some b =>
    cases hbuy : buys[i]? with
    | none => rw [hb, hbuy] at h; cases h
    | some amt => rcases List.getElem?_eq_some.mp hbuy with ⟨hlt, _⟩; exact hlt

theorem applyTrades_oob (num_tokens : Nat) (buys sells : List Nat) :
    ∀ (orders : List Order) (i : Nat) (bal : List Int),
      buys.length < i + orders.length →
      orders ≠ [] →
      applyTrades num_tokens buys sells bal i orders = none := by
  intro orders
  induction orders with
  | nil => intro i bal hlen hne; exact absurd rfl hne
  | cons o rest ih =>
    intro i bal hlen hne
    simp only [applyTrades]
    cases happ : applyTrade num_tokens buys sells bal i o with
    | none => rfl
    | some bal1 =>
      have hib : i < buys.length := applyTrade_some_buyIdx _ _ _ _ _ _ _ happ
      cases rest with
      | nil => simp only [List.length_cons, List.length_nil] at hlen; omega
      | cons r rs =>
        exact ih (i + 1) bal1 (by simp only [List.length_cons] at hlen ⊢; omega)
          (by simp)

theorem applyTrade_length (num_tokens : Nat) (buys sells : List Nat)
    (bal bal1 : List Int) (i : Nat) (o : Order)
    (h : applyTrade num_tokens buys sells bal i o = some bal1) :
    bal1.length = bal.length := by
  simp only [applyTrade] at h
  cases hb : bal[num_tokens * o.account_id + o.buy_token]? with
  | none => rw [hb] at h; cases h
  | some b =>
    cases hbuy : buys[i]? with
    | none =>
      simp only [hb, hbuy] at h
      exact Option.noConfusion h
    | some bAmt =>
      simp only [hb, hbuy] at h
      cases hsell : (bal.set (num_tokens * o.account_id + o.buy_token)
          (b + (bAmt : Int)))[num_tokens * o.account_id + o.sell_token]? with
      | none =>
        simp only [hsell] at h
        exact Option.noConfusion h
      | some sVal =>
        cases hsAmt : sells[i]? with
        | none =>
          simp only [hsell, hsAmt] at h
          exact Option.noConfusion h
        | some sAmt =>
          simp only [hsell, hsAmt] at h
          cases h
          simp only [List.length_set]

theorem applyTrades_isSome (num_tokens : Nat) (buys sells : List Nat) :
    ∀ (orders : List Order) (i : Nat) (bal : List Int),
      (∀ o ∈ orders, num_tokens * o.account_id + o.buy_token < bal.length ∧
        num_tokens * o.account_id + o.sell_token < bal.length) →
      i + orders.length ≤ buys.length →
      i + orders.length ≤ sells.length →
      (applyTrades num_tokens buys sells bal i orders).isSome := by
  intro orders
  induction orders with
  | nil => intro i bal hbound hb hs; simp [applyTrades]
  | cons o rest ih =>
    intro i bal hbound hb hs
    have hib : i < buys.length := by simp only [List.length_cons] at hb; omega
    have his : i < sells.length := by simp only [List.length_cons] at hs; omega
    obtain ⟨hob, hos⟩ := hbound o (by simp)
    obtain ⟨b, hb2⟩ : ∃ b, bal[num_tokens * o.account_id + o.buy_token]? = some b :=
      ⟨_, List.getElem?_eq_getElem hob⟩
    have hos1 : num_tokens * o.account_id + o.sell_token <
        (bal.set (num_tokens * o.account_id + o.buy_token)
          (b + (buys[i] : Int))).length := by
      rw [List.length_set]; exact hos
    simp only [applyTrades, applyTrade, List.getElem?_eq_getElem hib,
      List.getElem?_eq_getElem his, hb2,
      List.getElem?_eq_getElem hos1]
    exact ih (i + 1) _
      (fun o2 ho2 => by
        simp only [List.length_set]
        exact hbound o2 (List.mem_cons_of_mem _ ho2))
      (by simp only [List.length_cons] at hb; omega)
      (by simp only [List.length_cons] at hs; omega)

/-- C10: the settlement handler applies decoded volumes to orders purely by
position, with no length comparison between `get_orders(auction_id)` and the
decoded pairs.  (a) When the order list is no longer than both decoded volume
lists and every order addresses balances in range, every `buy_amounts[i]` /
`sell_amounts[i]` access is in bounds and an `AccountRecord` is written.
(b) When the store returns more orders than decoded buy/sell pairs, the
handler raises an out-of-bounds `IndexError` and no account record is
written (result `none`). -/
theorem c10_settlement_positional_bounds :
    (∀ (settlement : AuctionSettlement) (prev : AccountRecord) (num_tokens : Nat)
      (orders : List Order),
      (∀ o ∈ orders,
        num_tokens * o.account_id + o.buy_token < prev.balances.length ∧
        num_tokens * o.account_id + o.sell_token < prev.balances.length) →
      orders.length ≤ settlement.prices_and_volumes.buy_amounts.length →
      orders.length ≤ settlement.prices_and_volumes.sell_amounts.length →
      ∃ rec, settlementUpdateAccounts settlement prev num_tokens orders = some rec) ∧
    (∀ (settlement : AuctionSettlement) (prev : AccountRecord) (num_tokens : Nat)
      (orders : List Order),
      settlement.prices_and_volumes.buy_amounts.length < orders.length →
      settlementUpdateAccounts settlement prev num_tokens orders = none) := by
  constructor
  · intro settlement prev num_tokens orders hbound hb hs
    obtain ⟨out, hout⟩ := Option.isSome_iff_exists.mp (applyTrades_isSome num_tokens
      settlement.prices_and_volumes.buy_amounts
      settlement.prices_and_volumes.sell_amounts orders 0 prev.balances hbound
      (by omega) (by omega))
    exact ⟨⟨settlement.state_index, settlement.state_hash, out⟩, by
      simp only [settlementUpdateAccounts, hout, Option.map_some']⟩
  · intro settlement prev num_tokens orders hlt
    have hne : orders ≠ [] := by
      intro h
      rw [h] at hlt
      simp at hlt
    rw [settlementUpdateAccounts, applyTrades_oob num_tokens _ _ orders 0
      prev.balances (by omega) hne]
    rfl

/-- C10 witness: two orders against a single decoded pair fail with no record
written, while one order against one pair succeeds. -/
theorem c10_witness :
    settlementUpdateAccounts ⟨1, 2, "H", ⟨[1, 1], [3], [4]⟩⟩ ⟨1, "H0", [9, 9]⟩ 2
        [⟨1, 0, 0, 1, 0, 1, 1⟩, ⟨1, 1, 0, 0, 1, 1, 1⟩] = none ∧
    (settlementUpdateAccounts ⟨1, 2, "H", ⟨[1, 1], [3], [4]⟩⟩ ⟨1, "H0", [9, 9]⟩ 2
        [⟨1, 0, 0, 1, 0, 1, 1⟩]).isSome :=
  ⟨c10_settlement_positional_bounds.2 ⟨1, 2, "H", ⟨[1, 1], [3], [4]⟩⟩ ⟨1, "H0", [9, 9]⟩ 2
      [⟨1, 0, 0, 1, 0, 1, 1⟩, ⟨1, 1, 0, 0, 1, 1, 1⟩] (by decide),
    Option.isSome_iff_exists.mpr
      (c10_settlement_positional_bounds.1 ⟨1, 2, "H", ⟨[1, 1], [3], [4]⟩⟩ ⟨1, "H0", [9, 9]⟩ 2
        [⟨1, 0, 0, 1, 0, 1, 1⟩] (by decide) (by decide) (by decide))⟩
/-! ## Decoder agreement with the spec layout -/

theorem chunks24Aux_subset (fuel : Nat) :
    ∀ (l : List Char) (chunk : List Char), chunk ∈ chunks24Aux fuel l →
      ∀ c ∈ chunk, c ∈ l := by
  induction fuel with
  | zero => intro l chunk h; simp [chunks24Aux] at h
  | succ fuel ih =>
    intro l chunk h
    cases l with
    | nil => simp [chunks24Aux] at h
    | cons x xs =>
      simp only [chunks24Aux, List.mem_cons] at h
      rcases h with h | h
      · intro c hc
        rw [h] at hc
        exact List.take_subset 24 (x :: xs) hc
      · intro c hc
        exact List.drop_subset 24 (x :: xs) (ih (List.drop 24 (x :: xs)) chunk h c hc)

theorem pyIntHex_eq_hexValue (l : List Char)
    (h : ∀ c ∈ l, (hexDigit? c).isSome) : pyIntHex l = hexValue l := by
  have hx : l.take 2 ≠ ['0', 'x'] := by
    intro htake
    have : 'x' ∈ l := List.take_subset 2 l (by rw [htake]; simp)
    have := h 'x' this
    simp [hexDigit?] at this
  have hX : l.take 2 ≠ ['0', 'X'] := by
    intro htake
    have : 'X' ∈ l := List.take_subset 2 l (by rw [htake]; simp)
    have := h 'X' this
    simp [hexDigit?] at this
  simp only [pyIntHex]
  rw [if_neg (by tauto)]

theorem mapOpt_pyIntHex_eq_hexValue :
    ∀ (chunks : List (List Char)),
      (∀ chunk ∈ chunks, ∀ c ∈ chunk, (hexDigit? c).isSome) →
      mapOpt pyIntHex chunks = mapOpt hexValue chunks := by
  intro chunks
  induction chunks with
  | nil => intro h; rfl
  | cons chunk rest ih =>
    intro h
    simp only [mapOpt, pyIntHex_eq_hexValue chunk (h chunk (by simp)),
      ih (fun ch hch => h ch (List.mem_cons_of_mem _ hch))]

/-- C5: the claim is false for `0x`-prefixed payloads.  `serialize_solution`
slices the *unstripped* string into 24-character chunks, so a prefixed payload
is misaligned: with `N = 1, M = 0` and the payload `000000000000000000000001`
(24 hex digits, first 96-bit value 1) given as `0x000000000000000000000001`,
the decoder returns `prices = [0]` (and a spurious buy amount) instead of the
spec layout `prices = [1]` — Python's `int(t, 16)` happens to accept the first
chunk `0x` + 22 digits, shifting every later chunk by two characters. -/
theorem c5_prefixed_payload_mismatch :
    serialize_solution "0x000000000000000000000001" 1 = some ⟨[0], [1], []⟩ ∧
    specDecodeSolution "0x000000000000000000000001" 1 = some ⟨[1], [], []⟩ ∧
    serialize_solution "0x000000000000000000000001" 1 ≠
      specDecodeSolution "0x000000000000000000000001" 1 := by
  refine ⟨by decide, by decide, by decide⟩

/-- C5 (amended): for every payload given WITHOUT the `0x` prefix — i.e.
consisting solely of hex digits — of length `24·(N + 2M)`, the decoder agrees
with the spec layout: prices are the first `N` big-endian 96-bit values, buy
amounts the even-indexed and sell amounts the odd-indexed of the following
`2M` interleaved values.  (A `0x`-prefixed payload is mis-chunked, see the
counterexample.) -/
theorem c5_unprefixed_decode_agrees_spec (s : String) (num_tokens num_orders : Nat)
    (hhex : ∀ c ∈ s.data, (hexDigit? c).isSome)
    (_hlen : s.data.length = 24 * (num_tokens + 2 * num_orders)) :
    serialize_solution s num_tokens = specDecodeSolution s num_tokens := by
  have hpre : s.data.take 2 ≠ ['0', 'x'] := by
    intro htake
    have : 'x' ∈ s.data := List.take_subset 2 s.data (by rw [htake]; simp)
    have := hhex 'x' this
    simp [hexDigit?] at this
  have hmap : mapOpt pyIntHex (chunks24 s.data) = mapOpt hexValue (chunks24 s.data) :=
    mapOpt_pyIntHex_eq_hexValue (chunks24 s.data)
      (fun chunk hch c hc =>
        hhex c (chunks24Aux_subset s.data.length s.data chunk hch c hc))
  simp only [serialize_solution, specDecodeSolution, if_neg hpre, hmap]

/-- C5 witness: a concrete unprefixed 24-digit payload (`N = 1, M = 0`)
decodes identically under the source decoder and the spec layout. -/
theorem c5_witness :
    serialize_solution "00000000000000000000000a" 1 =
      specDecodeSolution "00000000000000000000000a" 1 :=
  c5_unprefixed_decode_agrees_spec "00000000000000000000000a" 1 0
    (by decide) (by decide)

/-! ## Standing-order aggregation -/

theorem entryKeyLe_refl (e : StandingOrder) : entryKeyLe e e := by
  simp [entryKeyLe]

theorem entryKeyLe_trans (e1 e2 e3 : StandingOrder)
    (h1 : entryKeyLe e1 e2) (h2 : entryKeyLe e2 e3) : entryKeyLe e1 e3 := by
  simp only [entryKeyLe] at h1 h2 ⊢
  omega

theorem betterEntry_mem (best e : StandingOrder) :
    betterEntry best e = best ∨ betterEntry best e = e := by
  simp only [betterEntry]
  split <;> simp

theorem entryKeyLe_betterEntry_left (best e : StandingOrder) :
    entryKeyLe best (betterEntry best e) := by
  simp only [betterEntry, entryKeyLe]
  split <;> omega

theorem entryKeyLe_betterEntry_right (best e : StandingOrder) :
    entryKeyLe e (betterEntry best e) := by
  simp only [betterEntry, entryKeyLe]
  split <;> omega

theorem foldl_betterEntry_mem :
    ∀ (xs : List StandingOrder) (x : StandingOrder),
      xs.foldl betterEntry x ∈ x :: xs := by
  intro xs
  induction xs with
  | nil => intro x; simp [List.foldl]
  | cons y ys ih =>
    intro x
    simp only [List.foldl]
    have hmem := ih (betterEntry x y)
    rcases List.mem_cons.mp hmem with h | h
    · rcases betterEntry_mem x y with hb | hb
      · rw [h, hb]; simp
      · rw [h, hb]; simp
    · simp [List.mem_cons_of_mem, h]

theorem foldl_betterEntry_le :
    ∀ (xs : List StandingOrder) (x e : StandingOrder),
      e ∈ x :: xs → entryKeyLe e (xs.foldl betterEntry x) := by
  intro xs
  induction xs with
  | nil =>
    intro x e he
    rcases List.mem_cons.mp he with h | h
    · rw [h]; exact entryKeyLe_refl x
    · simp at h
  | cons y ys ih =>
    intro x e he
    simp only [List.foldl]
    rcases List.mem_cons.mp he with h | h
    · subst h
      exact entryKeyLe_trans e (betterEntry e y) _
        (entryKeyLe_betterEntry_left e y)
        (ih (betterEntry e y) (betterEntry e y) (by simp))
    · rcases List.mem_cons.mp h with h2 | h2
      · subst h2
        exact entryKeyLe_trans e (betterEntry x e) _
          (entryKeyLe_betterEntry_right x e)
          (ih (betterEntry x e) (betterEntry x e) (by simp))
      · exact ih (betterEntry x y) e (List.mem_cons_of_mem _ h2)

theorem accountIds_mono :
    ∀ (entries : List StandingOrder) (acc : List Nat) (v : Nat),
      v ∈ acc →
      v ∈ entries.foldl
        (fun acc e => if e.account_id ∈ acc then acc else acc ++ [e.account_id]) acc := by
  intro entries
  induction entries with
  | nil => intro acc v hv; exact hv
  | cons e es ih =>
    intro acc v hv
    simp only [List.foldl]
    by_cases hmem : e.account_id ∈ acc
    · rw [if_pos hmem]; exact ih acc v hv
    · rw [if_neg hmem]
      exact ih (acc ++ [e.account_id]) v (List.mem_append.mpr (Or.inl hv))

theorem mem_accountIds_of_mem :
    ∀ (entries : List StandingOrder) (e : StandingOrder), e ∈ entries →
      e.account_id ∈ accountIds entries := by
  have main : ∀ (entries : List StandingOrder) (acc : List Nat) (e : StandingOrder),
      e ∈ entries →
      e.account_id ∈ entries.foldl
        (fun acc x => if x.account_id ∈ acc then acc else acc ++ [x.account_id]) acc := by
    intro entries
    induction entries with
    | nil => intro acc e he; simp at he
    | cons x xs ih =>
      intro acc e he
      simp only [List.foldl]
      rcases List.mem_cons.mp he with h | h
      · subst h
        by_cases hmem : e.account_id ∈ acc
        · rw [if_pos hmem]; exact accountIds_mono xs acc _ hmem
        · rw [if_neg hmem]
          exact accountIds_mono xs (acc ++ [e.account_id]) _
            (List.mem_append.mpr (Or.inr (by simp)))
      · by_cases hmem : x.account_id ∈ acc
        · rw [if_pos hmem]; exact ih acc e h
        · rw [if_neg hmem]; exact ih (acc ++ [x.account_id]) e h
  intro entries e he
  exact main entries [] e he

/-- C7: `get_orders(A)` returns the one-shot orders with auction id `A`
together with, per account holding at least one standing-order entry with
`valid_from_auction_id ≤ A`, the orders of that account's entry with the
largest such `valid_from_auction_id`, ties broken by the highest storage id
(latest insertion): the grouped winner is a valid entry of that account,
maximal in the lexicographic `(valid_from_auction_id, id)` order among the
account's valid entries, and all its orders appear in the result.
Concretely (spec scenario S6): with a one-shot order at auction 5 for
account 0 and standing entries for account 0 with `validFromAuctionId = 3`
(orders `[O3a]`, id 1) and `validFromAuctionId = 5` (orders `[O5a, O5b]`,
id 2), `get_orders 4 = [O3a]` (no one-shots at 4) and
`get_orders 5 = [oneshot, O5a, O5b]`. -/
theorem c7_get_orders_selection :
    (∀ (db : OrderStore) (auction_id a : Nat),
      (∃ e ∈ db.standing_orders, e.account_id = a ∧
        e.valid_from_auction_id ≤ auction_id) →
      ∃ best, bestFor (standingFiltered db auction_id) a = some best ∧
        best ∈ db.standing_orders ∧
        best.account_id = a ∧
        best.valid_from_auction_id ≤ auction_id ∧
        (∀ e ∈ db.standing_orders, e.account_id = a →
          e.valid_from_auction_id ≤ auction_id → entryKeyLe e best) ∧
        (∀ o ∈ best.orders, o ∈ get_orders db auction_id)) ∧
    get_orders ⟨[⟨5, 0, 0, 1, 0, 1, 1⟩],
        [⟨1, 0, 0, 3, [⟨0, 0, 0, 1, 0, 3, 3⟩]⟩,
          ⟨2, 0, 1, 5, [⟨0, 0, 0, 1, 0, 5, 5⟩, ⟨0, 1, 0, 1, 0, 6, 6⟩]⟩]⟩ 4 =
      [⟨0, 0, 0, 1, 0, 3, 3⟩] ∧
    get_orders ⟨[⟨5, 0, 0, 1, 0, 1, 1⟩],
        [⟨1, 0, 0, 3, [⟨0, 0, 0, 1, 0, 3, 3⟩]⟩,
          ⟨2, 0, 1, 5, [⟨0, 0, 0, 1, 0, 5, 5⟩, ⟨0, 1, 0, 1, 0, 6, 6⟩]⟩]⟩ 5 =
      [⟨5, 0, 0, 1, 0, 1, 1⟩, ⟨0, 0, 0, 1, 0, 5, 5⟩, ⟨0, 1, 0, 1, 0, 6, 6⟩] := by
  refine ⟨?_, by decide, by decide⟩
  intro db auction_id a hex
  obtain ⟨e0, he0mem, he0acct, he0valid⟩ := hex
  have he0filtered : e0 ∈ standingFiltered db auction_id := by
    rw [standingFiltered, List.mem_filter]
    exact ⟨he0mem, by simp [he0valid]⟩
  have he0acc : e0 ∈ (standingFiltered db auction_id).filter
      (fun e => decide (e.account_id = a)) := by
    rw [List.mem_filter]
    exact ⟨he0filtered, by simp [he0acct]⟩
  obtain ⟨x, xs, hxxs⟩ :=
    List.exists_cons_of_ne_nil (List.ne_nil_of_mem he0acc)
  have hbest : bestFor (standingFiltered db auction_id) a =
      some (xs.foldl betterEntry x) := by
    rw [bestFor, hxxs]
  set best := xs.foldl betterEntry x with hbestdef
  have hbestmem : best ∈ (standingFiltered db auction_id).filter
      (fun e => decide (e.account_id = a)) := by
    rw [hxxs]
    exact foldl_betterEntry_mem xs x
  have hbestfiltered : best ∈ standingFiltered db auction_id :=
    (List.mem_filter.mp hbestmem).1
  have hbestacct : best.account_id = a := by
    have := (List.mem_filter.mp hbestmem).2
    simpa using this
  have hbestorig : best ∈ db.standing_orders :=
    (List.mem_filter.mp (by rw [standingFiltered] at hbestfiltered; exact hbestfiltered)).1
  have hbestvalid : best.valid_from_auction_id ≤ auction_id := by
    have := (List.mem_filter.mp
      (by rw [standingFiltered] at hbestfiltered; exact hbestfiltered)).2
    simpa using this
  refine ⟨best, hbest, hbestorig, hbestacct, hbestvalid, ?_, ?_⟩
  · intro e hemem heacct hevalid
    have hefiltacc : e ∈ x :: xs := by
      rw [← hxxs, List.mem_filter]
      refine ⟨?_, by simp [heacct]⟩
      rw [standingFiltered, List.mem_filter]
      exact ⟨hemem, by simp [hevalid]⟩
    exact foldl_betterEntry_le xs x e hefiltacc
  · intro o ho
    rw [get_orders, List.mem_append]
    right
    rw [List.mem_flatMap]
    refine ⟨a, ?_, ?_⟩
    · rw [← he0acct]
      exact mem_accountIds_of_mem _ e0 he0filtered
    · simp only [hbest]
      exact ho

/-- C7 witness: the selection property applied to the concrete S6 store at
auction 5 and account 0 produces a grouped winner for that account. -/
theorem c7_witness :
    (bestFor (standingFiltered ⟨[⟨5, 0, 0, 1, 0, 1, 1⟩],
      [⟨1, 0, 0, 3, [⟨0, 0, 0, 1, 0, 3, 3⟩]⟩,
        ⟨2, 0, 1, 5, [⟨0, 0, 0, 1, 0, 5, 5⟩, ⟨0, 1, 0, 1, 0, 6, 6⟩]⟩]⟩ 5) 0).isSome := by
  obtain ⟨best, h1, _⟩ := c7_get_orders_selection.1 ⟨[⟨5, 0, 0, 1, 0, 1, 1⟩],
      [⟨1, 0, 0, 3, [⟨0, 0, 0, 1, 0, 3, 3⟩]⟩,
        ⟨2, 0, 1, 5, [⟨0, 0, 0, 1, 0, 5, 5⟩, ⟨0, 1, 0, 1, 0, 6, 6⟩]⟩]⟩ 5 0
    ⟨⟨1, 0, 0, 3, [⟨0, 0, 0, 1, 0, 3, 3⟩]⟩, by simp, by decide⟩
  exact Option.isSome_iff_exists.mpr ⟨best, h1⟩

end Dex
